import Mathlib

/-!
Verification of the file-backed CRUD repository and session-based
authentication service of `laba5_OOP.py` (`JsonDataRepository`,
`UserRepository`, `FileAuthService`) against its specification.

The embedding is shallow: JSON record lists become Lean lists, the
repository methods become pure functions from the store (the parsed
content of the backing file) to the result together with the store as
persisted after the call, and the authentication service becomes a pure
function of its three pieces of state (the repository record list, the
current user, and the session file content).
-/

namespace Lab5

/-- A raw JSON record as read from the backing file: the value found under
the key `id` (`none` models a missing or non-numeric id, mirroring the
`item.get('id')` and `isinstance(id, (int, float))` checks of the source),
plus an abstract `payload` standing for the remaining key/value pairs,
which the repair pass copies unchanged via `item.copy()`. -/
structure RawRec where
  id : Option Int
  payload : Nat
deriving DecidableEq

/-- The initial fresh-id counter of `_fix_duplicate_ids`:
`max(valid_ids, default=0) + 1`, where `valid_ids` are all numeric ids,
positive or not. Python's `max` uses the default only when the iterable
is empty, hence the case split. -/
def nextIdOf (data : List RawRec) : Int :=
  match data.filterMap RawRec.id with
  | [] => 1
  | x :: xs => xs.foldl max x + 1

/-- The scan loop of `_fix_duplicate_ids`: `seen` holds the ids of kept
records, `next` is the fresh-id counter. A record whose id is missing,
non-positive or already seen is reassigned `next` (which is then
incremented); otherwise it is kept unchanged and its id marked seen. -/
def fixLoop : List RawRec → List Int → Int → List RawRec
  | [], _, _ => []
  | r :: rs, seen, next =>
    match r.id with
    | none => { r with id := some next } :: fixLoop rs seen (next + 1)
    | some v =>
      if v ≤ 0 then { r with id := some next } :: fixLoop rs seen (next + 1)
      else if v ∈ seen then { r with id := some next } :: fixLoop rs seen (next + 1)
      else r :: fixLoop rs (v :: seen) next

/-- `JsonDataRepository._fix_duplicate_ids`. -/
def fix_duplicate_ids (data : List RawRec) : List RawRec :=
  if data = [] then data
  else fixLoop data [] (nextIdOf data)

/-- The ids present in a raw record list (missing ids are dropped, as the
generator expression over `item.get('id')` does). -/
def outIds (l : List RawRec) : List Int := l.filterMap RawRec.id

theorem fixLoop_cons_none (r : RawRec) (rs : List RawRec) (seen : List Int)
    (next : Int) (hr : r.id = none) :
    fixLoop (r :: rs) seen next
      = { r with id := some next } :: fixLoop rs seen (next + 1) := by
  simp [fixLoop, hr]

theorem fixLoop_cons_nonpos (r : RawRec) (rs : List RawRec) (seen : List Int)
    (next : Int) (v : Int) (hr : r.id = some v) (hv : v ≤ 0) :
    fixLoop (r :: rs) seen next
      = { r with id := some next } :: fixLoop rs seen (next + 1) := by
  simp [fixLoop, hr, hv]

theorem fixLoop_cons_seen (r : RawRec) (rs : List RawRec) (seen : List Int)
    (next : Int) (v : Int) (hr : r.id = some v) (hv : ¬ v ≤ 0)
    (hs : v ∈ seen) :
    fixLoop (r :: rs) seen next
      = { r with id := some next } :: fixLoop rs seen (next + 1) := by
  simp [fixLoop, hr, hv, hs]

theorem fixLoop_cons_keep (r : RawRec) (rs : List RawRec) (seen : List Int)
    (next : Int) (v : Int) (hr : r.id = some v) (hv : ¬ v ≤ 0)
    (hs : v ∉ seen) :
    fixLoop (r :: rs) seen next = r :: fixLoop rs (v :: seen) next := by
  simp [fixLoop, hr, hv, hs]

theorem fix_eq (data : List RawRec) (h : data ≠ []) :
    fix_duplicate_ids data = fixLoop data [] (nextIdOf data) := by
  simp [fix_duplicate_ids, h]

theorem foldl_max_init_le (xs : List Int) (x : Int) : x ≤ xs.foldl max x := by
  induction xs generalizing x with
  | nil => exact le_refl x
  | cons y ys ih => exact le_trans (le_max_left x y) (ih (max x y))

theorem le_foldl_max (xs : List Int) (x v : Int) (h : v = x ∨ v ∈ xs) :
    v ≤ xs.foldl max x := by
  induction xs generalizing x with
  | nil =>
      rcases h with h | h
      · simpa [List.foldl] using le_of_eq h
      · cases h
  | cons y ys ih =>
      rcases h with h | h
      · subst h
        exact le_trans (le_max_left v y) (foldl_max_init_le ys (max v y))
      · rcases List.mem_cons.mp h with h | h
        · subst h
          exact le_trans (le_max_right x v) (foldl_max_init_le ys (max x v))
        · exact ih (max x y) (Or.inr h)

theorem lt_nextIdOf (data : List RawRec) (v : Int) (hv : v ∈ outIds data) :
    v < nextIdOf data := by
  unfold outIds at hv
  cases hds : data.filterMap RawRec.id with
  | nil => rw [hds] at hv; cases hv
  | cons x xs =>
      rw [hds] at hv
      have hn : nextIdOf data = xs.foldl max x + 1 := by
        simp [nextIdOf, hds]
      have hb : v ≤ xs.foldl max x := by
        rcases List.mem_cons.mp hv with h | h
        · exact le_foldl_max xs x v (Or.inl h)
        · exact le_foldl_max xs x v (Or.inr h)
      omega

theorem outIds_cons_mem (r : RawRec) (rs : List RawRec) (v : Int)
    (hv : v ∈ outIds rs) : v ∈ outIds (r :: rs) := by
  unfold outIds at hv ⊢
  cases hr : r.id <;> simp [List.filterMap_cons, hr, hv]

theorem fixLoop_reassign (r : RawRec) (rs : List RawRec) (seen : List Int)
    (next : Int)
    (ihres : (outIds (fixLoop rs seen (next + 1))).Nodup ∧
      ∀ w ∈ outIds (fixLoop rs seen (next + 1)),
        w ∉ seen ∧ (next + 1 ≤ w ∨ (0 < w ∧ w ∈ outIds rs)))
    (h1 : ∀ v ∈ outIds rs, v < next)
    (h2 : ∀ v ∈ seen, v < next) :
    (outIds ({ r with id := some next } :: fixLoop rs seen (next + 1))).Nodup ∧
    ∀ w ∈ outIds ({ r with id := some next } :: fixLoop rs seen (next + 1)),
      w ∉ seen ∧ (next ≤ w ∨ (0 < w ∧ w ∈ outIds (r :: rs))) := by
  obtain ⟨hnd, hall⟩ := ihres
  have hids : outIds ({ r with id := some next } :: fixLoop rs seen (next + 1))
      = next :: outIds (fixLoop rs seen (next + 1)) := by
    simp [outIds, List.filterMap_cons]
  rw [hids]
  constructor
  · refine List.Nodup.cons ?_ hnd
    intro hmem
    rcases (hall next hmem).2 with h | h
    · omega
    · have := h1 next h.2
      omega
  · intro w hw
    rcases List.mem_cons.mp hw with h | h
    · subst h
      refine ⟨fun hs => ?_, Or.inl (le_refl w)⟩
      have := h2 w hs
      omega
    · obtain ⟨hns, hb⟩ := hall w h
      refine ⟨hns, ?_⟩
      rcases hb with hb | hb
      · exact Or.inl (by omega)
      · exact Or.inr ⟨hb.1, outIds_cons_mem r rs w hb.2⟩

theorem fixLoop_ids (rs : List RawRec) :
    ∀ (seen : List Int) (next : Int),
      (∀ v ∈ outIds rs, v < next) →
      (∀ v ∈ seen, v < next) →
      (outIds (fixLoop rs seen next)).Nodup ∧
      ∀ w ∈ outIds (fixLoop rs seen next),
        w ∉ seen ∧ (next ≤ w ∨ (0 < w ∧ w ∈ outIds rs)) := by
  induction rs with
  | nil =>
      intro seen next _ _
      refine ⟨by simp [fixLoop, outIds], ?_⟩
      intro w hw
      simp [fixLoop, outIds] at hw
  | cons r rs ih =>
      intro seen next h1 h2
      have h1r : ∀ v ∈ outIds rs, v < next :=
        fun v hv => h1 v (outIds_cons_mem r rs v hv)
      cases hr : r.id with
      | none =>
          rw [fixLoop_cons_none r rs seen next hr]
          exact fixLoop_reassign r rs seen next
            (ih seen (next + 1)
              (fun v hv => by have := h1r v hv; omega)
              (fun v hv => by have := h2 v hv; omega)) h1r h2
      | some v =>
          by_cases hv : v ≤ 0
          · rw [fixLoop_cons_nonpos r rs seen next v hr hv]
            exact fixLoop_reassign r rs seen next
              (ih seen (next + 1)
                (fun w hw => by have := h1r w hw; omega)
                (fun w hw => by have := h2 w hw; omega)) h1r h2
          · by_cases hs : v ∈ seen
            · rw [fixLoop_cons_seen r rs seen next v hr hv hs]
              exact fixLoop_reassign r rs seen next
                (ih seen (next + 1)
                  (fun w hw => by have := h1r w hw; omega)
                  (fun w hw => by have := h2 w hw; omega)) h1r h2
            · rw [fixLoop_cons_keep r rs seen next v hr hv hs]
              have hvin : v ∈ outIds (r :: rs) := by
                simp [outIds, List.filterMap_cons, hr]
              have hvlt : v < next := h1 v hvin
              obtain ⟨hnd, hall⟩ := ih (v :: seen) next h1r
                (by
                  intro w hw
                  rcases List.mem_cons.mp hw with h | h
                  · subst h; exact hvlt
                  · exact h2 w h)
              have hids : outIds (r :: fixLoop rs (v :: seen) next)
                  = v :: outIds (fixLoop rs (v :: seen) next) := by
                simp [outIds, List.filterMap_cons, hr]
              rw [hids]
              constructor
              · refine List.Nodup.cons ?_ hnd
                intro hmem2
                exact (hall v hmem2).1 (List.mem_cons_self v seen)
              · intro w hw
                rcases List.mem_cons.mp hw with h | h
                · subst h
                  exact ⟨hs, Or.inr ⟨by omega, hvin⟩⟩
                · obtain ⟨hns, hb⟩ := hall w h
                  refine ⟨fun hws => hns (List.mem_cons_of_mem v hws), ?_⟩
                  rcases hb with hb | hb
                  · exact Or.inl hb
                  · exact Or.inr ⟨hb.1, outIds_cons_mem r rs w hb.2⟩

theorem fixLoop_isSome (rs : List RawRec) :
    ∀ (seen : List Int) (next : Int), ∀ r ∈ fixLoop rs seen next,
      r.id.isSome := by
  induction rs with
  | nil => intro seen next r hr; simp [fixLoop] at hr
  | cons r rs ih =>
      intro seen next r' hr'
      cases hr : r.id with
      | none =>
          rw [fixLoop_cons_none r rs seen next hr] at hr'
          rcases List.mem_cons.mp hr' with h | h
          · subst h; rfl
          · exact ih seen (next + 1) r' h
      | some v =>
          by_cases hv : v ≤ 0
          · rw [fixLoop_cons_nonpos r rs seen next v hr hv] at hr'
            rcases List.mem_cons.mp hr' with h | h
            · subst h; rfl
            · exact ih seen (next + 1) r' h
          · by_cases hs : v ∈ seen
            · rw [fixLoop_cons_seen r rs seen next v hr hv hs] at hr'
              rcases List.mem_cons.mp hr' with h | h
              · subst h; rfl
              · exact ih seen (next + 1) r' h
            · rw [fixLoop_cons_keep r rs seen next v hr hv hs] at hr'
              rcases List.mem_cons.mp hr' with h | h
              · subst h; simp [hr]
              · exact ih (v :: seen) next r' h

theorem fixLoop_keep_first (rs : List RawRec) :
    ∀ (seen : List Int) (next : Int) (i : Nat) (r : RawRec) (v : Int),
      rs[i]? = some r → r.id = some v → 0 < v →
      (∀ j, j < i → ∀ r', rs[j]? = some r' → r'.id ≠ some v) →
      v ∉ seen →
      (fixLoop rs seen next)[i]? = some r := by
  induction rs with
  | nil => intro seen next i r v h; simp at h
  | cons r0 rs ih =>
      intro seen next i r v hi hv hpos hfirst hseen
      cases i with
      | zero =>
          have hr0 : r0 = r := by simpa using hi
          subst hr0
          have hv0 : ¬ v ≤ 0 := by omega
          rw [fixLoop_cons_keep r0 rs seen next v hv hv0 hseen]
          simp
      | succ i =>
          have hi' : rs[i]? = some r := by simpa using hi
          have hfirst' : ∀ j, j < i → ∀ r', rs[j]? = some r' →
              r'.id ≠ some v := by
            intro j hj r' hr'
            exact hfirst (j + 1) (by omega) r' (by simpa using hr')
          have hr0 : r0.id ≠ some v := hfirst 0 (by omega) r0 (by simp)
          cases h0 : r0.id with
          | none =>
              rw [fixLoop_cons_none r0 rs seen next h0]
              simpa using ih seen (next + 1) i r v hi' hv hpos hfirst' hseen
          | some v0 =>
              by_cases hv0 : v0 ≤ 0
              · rw [fixLoop_cons_nonpos r0 rs seen next v0 h0 hv0]
                simpa using ih seen (next + 1) i r v hi' hv hpos hfirst' hseen
              · by_cases hs0 : v0 ∈ seen
                · rw [fixLoop_cons_seen r0 rs seen next v0 h0 hv0 hs0]
                  simpa using ih seen (next + 1) i r v hi' hv hpos hfirst' hseen
                · rw [fixLoop_cons_keep r0 rs seen next v0 h0 hv0 hs0]
                  have hvne : v ∉ v0 :: seen := by
                    intro hm
                    rcases List.mem_cons.mp hm with h | h
                    · exact hr0 (by rw [h0, h])
                    · exact hseen h
                  simpa using ih (v0 :: seen) next i r v hi' hv hpos hfirst' hvne

/-- C1 (amended): identity repair gives every record a defined id and makes
the ids pairwise distinct; all output ids are strictly positive provided
the fresh-id counter `max(all valid numeric ids) + 1` (or `1` when there
are no valid numeric ids) starts at `1` or above — the source computes the
maximum over all numeric ids, positive or not, so an all-negative store
escapes positivity; a record whose id is positive and occurs for the first
time in the list keeps its id; and the duplicate scenario
`[{id 1, a}, {id 1, b}]` repairs to ids `[1, 2]`. -/
theorem c1_repair_spec (data : List RawRec) :
    (∀ r ∈ fix_duplicate_ids data, r.id.isSome) ∧
    (outIds (fix_duplicate_ids data)).Nodup ∧
    (1 ≤ nextIdOf data → ∀ w ∈ outIds (fix_duplicate_ids data), 0 < w) ∧
    (∀ (i : Nat) (r : RawRec) (v : Int), data[i]? = some r → r.id = some v →
      0 < v →
      (∀ j, j < i → ∀ r', data[j]? = some r' → r'.id ≠ some v) →
      (fix_duplicate_ids data)[i]? = some r) ∧
    fix_duplicate_ids [⟨some 1, 0⟩, ⟨some 1, 1⟩]
      = [⟨some 1, 0⟩, ⟨some 2, 1⟩] := by
  by_cases hd : data = []
  · subst hd
    refine ⟨?_, ?_, ?_, ?_, by decide⟩
    · intro r hr; simp [fix_duplicate_ids] at hr
    · simp [fix_duplicate_ids, outIds]
    · intro _ w hw; simp [fix_duplicate_ids, outIds] at hw
    · intro i r v hi; simp at hi
  · have hfix := fix_eq data hd
    have hbound : ∀ v ∈ outIds data, v < nextIdOf data :=
      fun v hv => lt_nextIdOf data v hv
    have hseen : ∀ v ∈ ([] : List Int), v < nextIdOf data := by
      intro v hv; cases hv
    obtain ⟨hnd, hall⟩ := fixLoop_ids data [] (nextIdOf data) hbound hseen
    refine ⟨?_, ?_, ?_, ?_, by decide⟩
    · intro r hr
      rw [hfix] at hr
      exact fixLoop_isSome data [] (nextIdOf data) r hr
    · rw [hfix]; exact hnd
    · intro hone w hw
      rw [hfix] at hw
      rcases (hall w hw).2 with h | h
      · omega
      · exact h.1
    · intro i r v hi hv hpos hfirst
      rw [hfix]
      exact fixLoop_keep_first data [] (nextIdOf data) i r v hi hv hpos hfirst
        (by intro h; cases h)

/-- C1 witness: at the duplicate store `[{id 1, a}, {id 1, b}]` the
repaired ids are unique and strictly positive. -/
theorem c1_repair_spec_witness :
    (outIds (fix_duplicate_ids [⟨some 1, 0⟩, ⟨some 1, 1⟩])).Nodup ∧
    ∀ w ∈ outIds (fix_duplicate_ids [⟨some 1, 0⟩, ⟨some 1, 1⟩]), 0 < w := by
  have h := c1_repair_spec [⟨some 1, 0⟩, ⟨some 1, 1⟩]
  exact ⟨h.2.1, h.2.2.1 (by decide)⟩

/-- C1 counterexample: on the store `[{id -2}]` — which contains a
non-positive id, so the claim applies — repair reassigns the id to `-1`
(`max` over all numeric ids, not only positive ones, plus one), so the
output id is neither strictly positive nor drawn starting from `1` even
though no valid positive id is present. -/
theorem c1_repair_counterexample :
    fix_duplicate_ids [⟨some (-2), 0⟩] = [⟨some (-1), 0⟩] ∧
    outIds (fix_duplicate_ids [⟨some (-2), 0⟩]) = [-1] ∧
    ¬ (0 < (-1 : Int)) ∧
    nextIdOf [⟨some (-2), 0⟩] ≠ 1 := by
  refine ⟨by decide, by decide, by decide, by decide⟩

/-- A generic entity handled by `JsonDataRepository`: the `id` attribute the
repository manages, plus an abstract `payload` standing for the remaining
dataclass fields. `_object_to_dict` round-trips a dataclass instance and
its field dict losslessly, so one Lean type serves as both the entity and
its stored record. -/
structure Entity where
  id : Int
  payload : Nat
deriving DecidableEq

/-- `JsonDataRepository._object_to_dict`: the field dict of a dataclass
instance carries exactly the instance's data, so the conversion is the
identity here. -/
def object_to_dict (e : Entity) : Entity := e

/-- `JsonDataRepository._write_data`: when a `sort_key` is configured the
write re-sorts the whole record set before persisting. The pass is
abstracted as a function `sortFn` on the record list; `fun d => d` models
the default `sort_key=None`. -/
def write_data (sortFn : List Entity → List Entity) (d : List Entity) :
    List Entity := sortFn d

/-- `JsonDataRepository.get_by_id`: first record whose stored id equals the
argument (`item.get('id') == id`). -/
def get_by_id (s : List Entity) (i : Int) : Option Entity :=
  s.find? (fun r => r.id == i)

/-- The replacement scan of `JsonDataRepository.update`: replace the first
record whose stored id equals `item.id` with `_object_to_dict(item)`;
`none` when the loop finds no match (`updated` stays false). -/
def replaceById : List Entity → Entity → Option (List Entity)
  | [], _ => none
  | r :: rs, e =>
    if r.id = e.id then some (object_to_dict e :: rs)
    else (replaceById rs e).map (fun d => r :: d)

/-- `JsonDataRepository.update`: replace the record matching `item.id` and
persist, or — when no record matches — return before writing, leaving the
file untouched and reporting failure. The boolean is the `updated` flag,
the list is the store as persisted after the call. -/
def update (sortFn : List Entity → List Entity) (s : List Entity)
    (e : Entity) : Bool × List Entity :=
  match replaceById s e with
  | some d => (true, write_data sortFn d)
  | none => (false, s)

/-- `JsonDataRepository.delete`: keep every record whose id differs from
`item.id`; when nothing was dropped raise (`Except.error`, file untouched),
otherwise persist the filtered list. -/
def delete (sortFn : List Entity → List Entity) (s : List Entity)
    (e : Entity) : Except String (List Entity) :=
  let newData := s.filter (fun r => r.id != e.id)
  if newData.length = s.length then Except.error "record not found"
  else Except.ok (write_data sortFn newData)

/-- `max(existing_ids, default=0) + 1`, the id `JsonDataRepository.add`
assigns when the entity's id collides with a stored one. -/
def nextFreeId (s : List Entity) : Int :=
  match s.map Entity.id with
  | [] => 1
  | x :: xs => xs.foldl max x + 1

/-- `JsonDataRepository.add`: when `item.id` collides with an existing id,
mutate `item.id` to `max(existing ids) + 1`; append the record and persist.
The first component is the caller's entity object after the call (Python
mutates it in place), the second the store as persisted. -/
def add (sortFn : List Entity → List Entity) (s : List Entity)
    (e : Entity) : Entity × List Entity :=
  let e' := if e.id ∈ s.map Entity.id then { e with id := nextFreeId s } else e
  (e', write_data sortFn (s ++ [object_to_dict e']))

theorem replaceById_eq_none (s : List Entity) (e : Entity) :
    (∀ r ∈ s, r.id ≠ e.id) → replaceById s e = none := by
  induction s with
  | nil => intro _; rfl
  | cons r rs ih =>
      intro h
      simp [replaceById, h r (List.mem_cons_self r rs),
        ih (fun x hx => h x (List.mem_cons_of_mem r hx))]

/-- C2: generic `update` on an entity whose id matches no stored record
reports failure (the `updated` flag stays false) and returns before any
write, so the persisted record list is exactly the old one — in particular
nothing is appended. -/
theorem c2_update_missing_id (sortFn : List Entity → List Entity)
    (s : List Entity) (e : Entity) (h : ∀ r ∈ s, r.id ≠ e.id) :
    update sortFn s e = (false, s) := by
  simp [update, replaceById_eq_none s e h]

/-- C2 witness: updating id 2 against a store holding only id 1 is a
reported no-op. -/
theorem c2_update_missing_id_witness :
    update (fun d => d) [⟨1, 10⟩] ⟨2, 20⟩ = (false, [⟨1, 10⟩]) :=
  c2_update_missing_id (fun d => d) [⟨1, 10⟩] ⟨2, 20⟩ (by decide)

theorem filter_ne_id_eq_self (s : List Entity) (e : Entity)
    (h : ∀ r ∈ s, r.id ≠ e.id) :
    s.filter (fun r => r.id != e.id) = s := by
  rw [List.filter_eq_self]
  intro a ha
  simpa using h a ha

theorem filter_ne_id_length (s : List Entity) (e : Entity) :
    (s.map Entity.id).Nodup → (∃ r ∈ s, r.id = e.id) →
    (s.filter (fun r => r.id != e.id)).length + 1 = s.length := by
  induction s with
  | nil =>
      intro _ h
      obtain ⟨r, hr, _⟩ := h
      cases hr
  | cons r0 rs ih =>
      intro hnd hex
      have hnd' : r0.id ∉ rs.map Entity.id ∧ (rs.map Entity.id).Nodup := by
        simpa [List.nodup_cons] using hnd
      by_cases h0 : r0.id = e.id
      · have hkeep : rs.filter (fun r => r.id != e.id) = rs := by
          refine filter_ne_id_eq_self rs e ?_
          intro a ha hae
          exact hnd'.1 (by rw [h0, ← hae]; exact List.mem_map_of_mem Entity.id ha)
        have hp : ((fun r => r.id != e.id) r0) = false := by simp [h0]
        simp [List.filter_cons, hp, hkeep]
      · have hex' : ∃ r ∈ rs, r.id = e.id := by
          obtain ⟨r, hr, he⟩ := hex
          rcases List.mem_cons.mp hr with h | h
          · exact absurd (h ▸ he) h0
          · exact ⟨r, h, he⟩
        have hp : ((fun r => r.id != e.id) r0) = true := by simpa using h0
        have := ih hnd'.2 hex'
        simp only [List.filter_cons, hp, if_true, List.length_cons]
        omega

/-- C3 (amended): over stores whose ids are duplicate-free — the repository
invariant, violable only by external edits of the backing file, which plain
reads no longer repair — and any permutation write order, `delete` of an
absent id raises (`ValueError` in the source, the spec's `NotFoundError`)
leaving the store untouched, and `delete` of a present id persists a store
with exactly one record fewer. -/
theorem c3_delete_spec (sortFn : List Entity → List Entity)
    (hperm : ∀ d, List.Perm (sortFn d) d) (s : List Entity) (e : Entity)
    (hnd : (s.map Entity.id).Nodup) :
    ((∀ r ∈ s, r.id ≠ e.id) →
      delete sortFn s e = Except.error "record not found") ∧
    ((∃ r ∈ s, r.id = e.id) →
      ∃ d, delete sortFn s e = Except.ok d ∧ d.length + 1 = s.length) := by
  constructor
  · intro h
    have hkeep := filter_ne_id_eq_self s e h
    simp [delete, hkeep]
  · intro hex
    have hlen := filter_ne_id_length s e hnd hex
    refine ⟨write_data sortFn (s.filter (fun r => r.id != e.id)), ?_, ?_⟩
    · simp only [delete]
      rw [if_neg (by omega)]
    · have := (hperm (s.filter (fun r => r.id != e.id))).length_eq
      simp only [write_data]
      omega

/-- C3 witness: with unique ids, deleting absent id 3 errors, and deleting
present id 2 shrinks the two-record store to one record. -/
theorem c3_delete_spec_witness :
    delete (fun d => d) [(⟨1, 10⟩ : Entity), ⟨2, 20⟩] ⟨3, 0⟩
      = Except.error "record not found" ∧
    ∃ d, delete (fun d => d) [(⟨1, 10⟩ : Entity), ⟨2, 20⟩] ⟨2, 0⟩
      = Except.ok d ∧ d.length + 1 = 2 := by
  constructor
  · exact (c3_delete_spec (fun d => d) (fun d => List.Perm.refl d)
      [⟨1, 10⟩, ⟨2, 20⟩] ⟨3, 0⟩ (by decide)).1 (by decide)
  · exact (c3_delete_spec (fun d => d) (fun d => List.Perm.refl d)
      [⟨1, 10⟩, ⟨2, 20⟩] ⟨2, 0⟩ (by decide)).2 ⟨⟨2, 20⟩, by decide, by decide⟩

/-- C3 counterexample: a store corrupted with a duplicated id — reachable
since plain reads do not repair externally edited files — makes `delete`
drop both matching records: the count falls by two, not exactly one. -/
theorem c3_delete_counterexample :
    (∃ r ∈ [(⟨1, 10⟩ : Entity), ⟨1, 20⟩], r.id = (1 : Int)) ∧
    delete (fun d => d) [(⟨1, 10⟩ : Entity), ⟨1, 20⟩] ⟨1, 30⟩
      = Except.ok [] ∧
    ¬ (([] : List Entity).length + 1
        = ([(⟨1, 10⟩ : Entity), ⟨1, 20⟩]).length) := by
  refine ⟨⟨⟨1, 10⟩, by decide, by decide⟩, rfl, by decide⟩

theorem add_fst (sortFn : List Entity → List Entity) (s : List Entity)
    (e : Entity) :
    (add sortFn s e).1
      = if e.id ∈ s.map Entity.id then { e with id := nextFreeId s } else e :=
  rfl

theorem add_snd (sortFn : List Entity → List Entity) (s : List Entity)
    (e : Entity) :
    (add sortFn s e).2 = sortFn (s ++ [(add sortFn s e).1]) :=
  rfl

theorem lt_nextFreeId (s : List Entity) (r : Entity) (hr : r ∈ s) :
    r.id < nextFreeId s := by
  have hv : r.id ∈ s.map Entity.id := List.mem_map_of_mem Entity.id hr
  cases hds : s.map Entity.id with
  | nil => rw [hds] at hv; cases hv
  | cons x xs =>
      rw [hds] at hv
      have hn : nextFreeId s = xs.foldl max x + 1 := by
        simp [nextFreeId, hds]
      have hb : r.id ≤ xs.foldl max x := by
        rcases List.mem_cons.mp hv with h | h
        · exact le_foldl_max xs x r.id (Or.inl h)
        · exact le_foldl_max xs x r.id (Or.inr h)
      omega

theorem add_fst_id_fresh (sortFn : List Entity → List Entity)
    (s : List Entity) (e : Entity) (r : Entity) (hr : r ∈ s) :
    r.id ≠ (add sortFn s e).1.id := by
  rw [add_fst]
  by_cases hc : e.id ∈ s.map Entity.id
  · rw [if_pos hc]
    have := lt_nextFreeId s r hr
    intro h
    simp only [h] at this
    omega
  · rw [if_neg hc]
    intro h
    exact hc (h ▸ List.mem_map_of_mem Entity.id hr)

/-- C9: `add` followed by `get_by_id` at the id the repository assigned
returns exactly the entity as persisted: the payload of the argument, with
the argument's id unless a collision forced reassignment. Holds for every
permutation write order, covering both `sort_key=None` and auto-sort. -/
theorem c9_add_then_get_by_id (sortFn : List Entity → List Entity)
    (hperm : ∀ d, List.Perm (sortFn d) d) (s : List Entity) (e : Entity) :
    get_by_id (add sortFn s e).2 (add sortFn s e).1.id
      = some (add sortFn s e).1 ∧
    (add sortFn s e).1.payload = e.payload := by
  constructor
  · have hmem : (add sortFn s e).1 ∈ (add sortFn s e).2 := by
      rw [add_snd]
      exact (hperm (s ++ [(add sortFn s e).1])).mem_iff.mpr
        (List.mem_append_right s (List.mem_cons_self _ []))
    have hsome : ((add sortFn s e).2.find?
        (fun r => r.id == (add sortFn s e).1.id)).isSome := by
      rw [List.find?_isSome]
      exact ⟨(add sortFn s e).1, hmem, by simp⟩
    obtain ⟨x, hx⟩ := Option.isSome_iff_exists.mp hsome
    have hximem : x ∈ (add sortFn s e).2 := List.mem_of_find?_eq_some hx
    have hxid : x.id = (add sortFn s e).1.id := by
      simpa using List.find?_some hx
    have hxin : x ∈ s ++ [(add sortFn s e).1] := by
      rw [add_snd] at hximem
      exact (hperm (s ++ [(add sortFn s e).1])).mem_iff.mp hximem
    have hxeq : x = (add sortFn s e).1 := by
      rcases List.mem_append.mp hxin with h | h
      · exact absurd hxid (add_fst_id_fresh sortFn s e x h)
      · simpa using h
    rw [get_by_id, hx, hxeq]
  · rw [add_fst]
    by_cases hc : e.id ∈ s.map Entity.id
    · rw [if_pos hc]
    · rw [if_neg hc]

/-- C9 witness: adding id 1 to a store already holding id 1 reassigns to
id 2, and `get_by_id 2` returns the stored copy with the same payload. -/
theorem c9_add_then_get_by_id_witness :
    get_by_id (add (fun d => d) [⟨1, 10⟩] ⟨1, 77⟩).2
        (add (fun d => d) [⟨1, 10⟩] ⟨1, 77⟩).1.id
      = some (add (fun d => d) [⟨1, 10⟩] ⟨1, 77⟩).1 ∧
    (add (fun d => d) [⟨1, 10⟩] ⟨1, 77⟩).1.payload = 77 :=
  c9_add_then_get_by_id (fun d => d) (fun d => List.Perm.refl d) [⟨1, 10⟩] ⟨1, 77⟩

/-- C10: the caller observes the assigned id only through the in-place
mutation of its entity object: after `add`, the caller's object (first
component) is exactly the record appended before the persisting write, its
id being `max(existing ids) + 1` on collision and the original id
otherwise, with every other field unchanged. -/
theorem c10_add_mutates_caller (sortFn : List Entity → List Entity)
    (s : List Entity) (e : Entity) :
    (add sortFn s e).2
      = write_data sortFn (s ++ [object_to_dict (add sortFn s e).1]) ∧
    (add sortFn s e).1.id
      = (if e.id ∈ s.map Entity.id then nextFreeId s else e.id) ∧
    (add sortFn s e).1.payload = e.payload := by
  refine ⟨rfl, ?_, ?_⟩
  · rw [add_fst]
    by_cases hc : e.id ∈ s.map Entity.id
    · rw [if_pos hc, if_pos hc]
    · rw [if_neg hc, if_neg hc]
  · rw [add_fst]
    by_cases hc : e.id ∈ s.map Entity.id
    · rw [if_pos hc]
    · rw [if_neg hc]

/-- C5: evaluating `add` at the failing input — an empty store and a caller
entity carrying the placeholder id 0 — shows the placeholder reaching the
file unchanged: `add` reassigns only on a collision with an existing id, so
the persisted store contains a record with the non-positive id 0 and the
positivity invariant is broken, contradicting the source's own comment that
the placeholder `id=0` "will be replaced on save". -/
theorem c5_add_persists_placeholder :
    add (fun d => d) [] ⟨0, 7⟩ = (⟨0, 7⟩, [⟨0, 7⟩]) ∧
    ∃ r ∈ (add (fun d => d) [] ⟨0, 7⟩).2, ¬ (0 < r.id) := by
  exact ⟨rfl, ⟨⟨0, 7⟩, by decide, by decide⟩⟩

/-- The `User` dataclass: `id, name, login, password, email, address`.
Records written by `UserRepository` carry exactly these fields and
`User(**item)` rebuilds the instance, so one Lean type serves as both the
dataclass instance and its stored record. -/
structure User where
  id : Int
  name : String
  login : String
  password : String
  email : Option String := none
  address : Option String := none
deriving DecidableEq

/-- The persisting write of `UserRepository`
(`sort_key=lambda u: u.name`): a stable sort of the record set by display
name, as Python's `sorted` performs. -/
def userWrite (d : List User) : List User :=
  List.insertionSort (fun a b => a.name ≤ b.name) d

/-- `UserRepository.get_by_login`: first record with the given login. -/
def get_by_login (s : List User) (login : String) : Option User :=
  s.find? (fun r => r.login == login)

/-- `JsonDataRepository.get_by_id` at the `User` instantiation, as used by
`FileAuthService._load_session`. -/
def user_get_by_id (s : List User) (i : Int) : Option User :=
  s.find? (fun r => r.id == i)

/-- First pass of `UserRepository.update`: replace the first record whose
stored id equals `item.id`. -/
def userReplaceById : List User → User → Option (List User)
  | [], _ => none
  | r :: rs, u =>
    if r.id = u.id then some (u :: rs)
    else (userReplaceById rs u).map (fun d => r :: d)

/-- Fallback pass of `UserRepository.update`: replace the first record
whose login matches, adopting the stored id (`item.id = old_id`) and
overwriting the remaining fields with the caller's values. -/
def userReplaceByLogin : List User → User → Option (List User)
  | [], _ => none
  | r :: rs, u =>
    if r.login = u.login then some ({ u with id := r.id } :: rs)
    else (userReplaceByLogin rs u).map (fun d => r :: d)

/-- `UserRepository.update`: match by id, then fall back to a match by
login; on success persist through the name-sorted write, otherwise leave
the file untouched and report failure. -/
def user_update (s : List User) (u : User) : Bool × List User :=
  match userReplaceById s u with
  | some d => (true, userWrite d)
  | none =>
    match userReplaceByLogin s u with
    | some d => (true, userWrite d)
    | none => (false, s)

theorem userReplaceById_eq_none (s : List User) (u : User) :
    (∀ r ∈ s, r.id ≠ u.id) → userReplaceById s u = none := by
  induction s with
  | nil => intro _; rfl
  | cons r rs ih =>
      intro h
      simp [userReplaceById, h r (List.mem_cons_self r rs),
        ih (fun x hx => h x (List.mem_cons_of_mem r hx))]

theorem userReplaceByLogin_eq_none (s : List User) (u : User) :
    (∀ r ∈ s, r.login ≠ u.login) → userReplaceByLogin s u = none := by
  induction s with
  | nil => intro _; rfl
  | cons r rs ih =>
      intro h
      simp [userReplaceByLogin, h r (List.mem_cons_self r rs),
        ih (fun x hx => h x (List.mem_cons_of_mem r hx))]

theorem userReplaceByLogin_spec (s : List User) (u : User) (r0 : User) :
    s.find? (fun r => r.login == u.login) = some r0 →
    ∃ d, userReplaceByLogin s u = some d ∧
      { u with id := r0.id } ∈ d ∧ d.length = s.length := by
  induction s with
  | nil => intro h; cases h
  | cons r rs ih =>
      intro h
      by_cases hl : r.login = u.login
      · have hr0 : r = r0 := by
          rw [List.find?_cons_of_pos] at h
          · exact Option.some.inj h
          · simp [hl]
        refine ⟨{ u with id := r.id } :: rs,
          by simp [userReplaceByLogin, hl], ?_, by simp⟩
        rw [← hr0]
        exact List.mem_cons_self _ _
      · have h' : rs.find? (fun r => r.login == u.login) = some r0 := by
          rw [List.find?_cons_of_neg] at h
          · exact h
          · simp [hl]
        obtain ⟨d, hd, hm, hlen⟩ := ih h'
        exact ⟨r :: d, by simp [userReplaceByLogin, hl, hd],
          List.mem_cons_of_mem r hm, by simp [hlen]⟩

/-- C4: when no stored record carries the caller's id, `UserRepository`'s
update falls back to a match by login: if the first login match is record
`r0`, the update succeeds and the persisted store — same size as before —
contains the caller's field values under the stored id `r0.id`, never the
caller-supplied id; if no record matches by login either, the update is a
reported no-op exactly like the generic one. -/
theorem c4_user_update_login_fallback (s : List User) (u : User)
    (hid : ∀ r ∈ s, r.id ≠ u.id) :
    (∀ r0, s.find? (fun r => r.login == u.login) = some r0 →
      (user_update s u).1 = true ∧
      { u with id := r0.id } ∈ (user_update s u).2 ∧
      (user_update s u).2.length = s.length) ∧
    ((∀ r ∈ s, r.login ≠ u.login) → user_update s u = (false, s)) := by
  have hby := userReplaceById_eq_none s u hid
  constructor
  · intro r0 hf
    obtain ⟨d, hd, hm, hlen⟩ := userReplaceByLogin_spec s u r0 hf
    have hres : user_update s u = (true, userWrite d) := by
      simp [user_update, hby, hd]
    refine ⟨by rw [hres], ?_, ?_⟩
    · rw [hres]
      exact (List.perm_insertionSort (fun a b => a.name ≤ b.name) d).mem_iff.mpr hm
    · rw [hres]
      simpa [userWrite, List.length_insertionSort] using hlen
  · intro hlog
    simp [user_update, hby, userReplaceByLogin_eq_none s u hlog]

/-- C4 witness: the spec scenario — `update(User(id=5, login="x"))` against
a store holding `{id 3, login "x"}` and no id 5 — succeeds, keeps stored id
3 with the caller's other fields, and preserves the store size. -/
theorem c4_user_update_login_fallback_witness :
    (user_update [⟨3, "Bob", "x", "old", none, none⟩]
        ⟨5, "New", "x", "new", some "n@e.org", none⟩).1 = true ∧
    (⟨3, "New", "x", "new", some "n@e.org", none⟩ : User)
      ∈ (user_update [⟨3, "Bob", "x", "old", none, none⟩]
          ⟨5, "New", "x", "new", some "n@e.org", none⟩).2 ∧
    (user_update [⟨3, "Bob", "x", "old", none, none⟩]
        ⟨5, "New", "x", "new", some "n@e.org", none⟩).2.length = 1 := by
  have h := (c4_user_update_login_fallback
    [⟨3, "Bob", "x", "old", none, none⟩]
    ⟨5, "New", "x", "new", some "n@e.org", none⟩ (by decide)).1
    ⟨3, "Bob", "x", "old", none, none⟩ (by decide)
  exact ⟨h.1, h.2.1, h.2.2⟩

/-- `FileAuthService.sign_in`, acting on the repository record list, the
current authentication state (`_current_user`) and the session file. The
session file is `none` when absent and `some x` when it holds a pickled
dict whose `user_id` field is `x`. The result is the Python return value
together with the state and the session file after the call. -/
def sign_in (repo : List User) (st : Option User)
    (sess : Option (Option Int)) (login password : String) :
    Bool × Option User × Option (Option Int) :=
  match get_by_login repo login with
  | none => (false, st, sess)
  | some user =>
    if user.password ≠ password then (false, st, sess)
    else (true, some user, some (some user.id))

/-- `FileAuthService._load_session` as run by the constructor: the state a
freshly constructed service starts in. A missing session file, a falsy
`user_id` (`None` or `0`), or an id that resolves to no stored user all
leave the service Anonymous. -/
def load_session (repo : List User) (sess : Option (Option Int)) :
    Option User :=
  match sess with
  | none => none
  | some userId =>
    match userId with
    | none => none
    | some uid => if uid = 0 then none else user_get_by_id repo uid

/-- `FileAuthService.sign_out`: clear the current user and remove the
session file, whatever the prior state. -/
def sign_out (_st : Option User) (_sess : Option (Option Int)) :
    Option User × Option (Option Int) :=
  (none, none)

/-- C7 (amended): a failed sign-in — login absent from the store, or the
first stored record with that login holding a different password — returns
false and changes nothing: the authentication state and the session file
are exactly what they were before the call, so a service that was
Anonymous stays Anonymous (but a previously authenticated one stays
authenticated). -/
theorem c7_sign_in_failure (repo : List User) (st : Option User)
    (sess : Option (Option Int)) (login password : String)
    (h : get_by_login repo login = none ∨
      ∃ u, get_by_login repo login = some u ∧ u.password ≠ password) :
    sign_in repo st sess login password = (false, st, sess) := by
  unfold sign_in
  rcases h with h | ⟨u, hu, hp⟩
  · rw [h]
  · rw [hu]
    simp only [if_pos hp]

/-- C7 witness: `signIn("ivan", "wrong")` on an Anonymous service over a
store containing ivan returns false and leaves state and session file
untouched. -/
theorem c7_sign_in_failure_witness :
    sign_in [⟨1, "Ivan", "ivan", "12345", none, none⟩] none none
      "ivan" "wrong" = (false, none, none) :=
  c7_sign_in_failure [⟨1, "Ivan", "ivan", "12345", none, none⟩] none none
    "ivan" "wrong"
    (Or.inr ⟨⟨1, "Ivan", "ivan", "12345", none, none⟩, by decide, by decide⟩)

/-- C7 counterexample: with the service already Authenticated (here as
maria) a failed sign-in for ivan with a wrong password returns false but
leaves the service Authenticated — `is_authorized` stays true — instead of
leaving it in the Anonymous state the claim requires for every prior
authentication state. -/
theorem c7_sign_in_counterexample :
    sign_in [⟨1, "Ivan", "ivan", "12345", none, none⟩,
        ⟨2, "Maria", "maria", "qwerty", none, none⟩]
      (some ⟨2, "Maria", "maria", "qwerty", none, none⟩)
      (some (some 2)) "ivan" "wrong"
      = (false, some ⟨2, "Maria", "maria", "qwerty", none, none⟩,
          some (some 2)) ∧
    (some (⟨2, "Maria", "maria", "qwerty", none, none⟩ : User)) ≠ none := by
  exact ⟨by decide, by decide⟩

/-- C8: the authentication round-trip, under the repository invariant of
duplicate-free, strictly positive stored ids: a sign-in with matching
credentials succeeds and authenticates as the stored user `u`, whose login
is the requested one; a fresh service constructed over the written session
file and the same repository resolves the very same user; and after
sign-out the running service is Anonymous and a fresh service constructed
over the cleared session file stays Anonymous. -/
theorem c8_auth_round_trip (repo : List User) (st0 : Option User)
    (sess0 : Option (Option Int)) (login password : String) (u : User)
    (hnd : (repo.map User.id).Nodup)
    (hu : get_by_login repo login = some u)
    (hpw : u.password = password) (hpos : 0 < u.id) :
    sign_in repo st0 sess0 login password
      = (true, some u, some (some u.id)) ∧
    u.login = login ∧
    load_session repo (some (some u.id)) = some u ∧
    sign_out (some u) (some (some u.id)) = (none, none) ∧
    load_session repo (sign_out (some u) (some (some u.id))).2 = none := by
  have hlogin : u.login = login := by
    have := List.find?_some hu
    simpa using this
  have humem : u ∈ repo := List.mem_of_find?_eq_some hu
  refine ⟨?_, hlogin, ?_, rfl, rfl⟩
  · unfold sign_in
    rw [hu]
    show (if u.password ≠ password then (false, st0, sess0)
      else (true, some u, some (some u.id))) = (true, some u, some (some u.id))
    rw [if_neg (by simp [hpw])]
  · show (if u.id = 0 then none else user_get_by_id repo u.id) = some u
    rw [if_neg (by omega : ¬ u.id = 0)]
    have hsome : ((user_get_by_id repo u.id)).isSome := by
      rw [user_get_by_id, List.find?_isSome]
      exact ⟨u, humem, by simp⟩
    obtain ⟨x, hx⟩ := Option.isSome_iff_exists.mp hsome
    have hxmem : x ∈ repo := List.mem_of_find?_eq_some hx
    have hxid : x.id = u.id := by
      have := List.find?_some hx
      simpa using this
    have hxeq : x = u := List.inj_on_of_nodup_map hnd hxmem humem hxid
    rw [hx, hxeq]

/-- C8 witness: the round-trip at a concrete one-user store with matching
credentials. -/
theorem c8_auth_round_trip_witness :
    sign_in [⟨1, "Ivan", "ivan", "12345", none, none⟩] none none
      "ivan" "12345"
      = (true, some ⟨1, "Ivan", "ivan", "12345", none, none⟩,
          some (some 1)) ∧
    load_session [⟨1, "Ivan", "ivan", "12345", none, none⟩] (some (some 1))
      = some ⟨1, "Ivan", "ivan", "12345", none, none⟩ ∧
    load_session [⟨1, "Ivan", "ivan", "12345", none, none⟩]
      (sign_out (some ⟨1, "Ivan", "ivan", "12345", none, none⟩)
        (some (some 1))).2 = none := by
  have h := c8_auth_round_trip [⟨1, "Ivan", "ivan", "12345", none, none⟩]
    none none "ivan" "12345" ⟨1, "Ivan", "ivan", "12345", none, none⟩
    (by decide) (by decide) rfl (by decide)
  exact ⟨h.1, h.2.2.1, h.2.2.2.2⟩

/-- `self.data_class(**item)` on one raw record: fails (`none`) when the id
is missing, otherwise yields the entity. -/
def rawToEntity (r : RawRec) : Option Entity :=
  r.id.map (fun v => Entity.mk v r.payload)

/-- `JsonDataRepository._read_data`: since the duplicate-id fix was moved
to load time, a plain read returns the raw file content unchanged
(`return self._read_raw_data()`). -/
def read_data (file : List RawRec) : List RawRec := file

/-- The record-to-entity mapping of `get_all`
(`[self.data_class(**item) for item in data]`). -/
def readEntities : List RawRec → Option (List Entity)
  | [] => some []
  | r :: rs =>
    match rawToEntity r with
    | none => none
    | some e => (readEntities rs).map (fun es => e :: es)

/-- `JsonDataRepository.get_all`: the returned value paired with the
backing file after the call — `get_all` only reads, so the file component
is the input itself. -/
def get_all (file : List RawRec) : Option (List Entity) × List RawRec :=
  (readEntities (read_data file), file)

theorem fixLoop_fixed (rs : List RawRec) :
    ∀ (seen : List Int) (next : Int),
      (∀ v ∈ outIds rs, v < next) →
      fixLoop rs seen next = rs →
      (∀ r ∈ rs, ∃ v, r.id = some v ∧ 0 < v ∧ v ∉ seen) ∧
      (outIds rs).Nodup := by
  induction rs with
  | nil =>
      intro seen next _ _
      exact ⟨(by intro r hr; cases hr), (by simp [outIds])⟩
  | cons r rs ih =>
      intro seen next h1 heq
      cases hr : r.id with
      | none =>
          rw [fixLoop_cons_none r rs seen next hr] at heq
          have hhead : ({ r with id := some next } : RawRec) = r :=
            (List.cons.inj heq).1
          have : r.id = some next := by rw [← hhead]
          rw [hr] at this
          cases this
      | some v =>
          by_cases hv : v ≤ 0
          · rw [fixLoop_cons_nonpos r rs seen next v hr hv] at heq
            have hhead : ({ r with id := some next } : RawRec) = r :=
              (List.cons.inj heq).1
            have hid : r.id = some next := by rw [← hhead]
            rw [hr] at hid
            have hveq : v = next := Option.some.inj hid
            have hlt : v < next := h1 v (by simp [outIds, List.filterMap_cons, hr])
            omega
          · by_cases hs : v ∈ seen
            · rw [fixLoop_cons_seen r rs seen next v hr hv hs] at heq
              have hhead : ({ r with id := some next } : RawRec) = r :=
                (List.cons.inj heq).1
              have hid : r.id = some next := by rw [← hhead]
              rw [hr] at hid
              have hveq : v = next := Option.some.inj hid
              have hlt : v < next := h1 v (by simp [outIds, List.filterMap_cons, hr])
              omega
            · rw [fixLoop_cons_keep r rs seen next v hr hv hs] at heq
              have htail : fixLoop rs (v :: seen) next = rs :=
                (List.cons.inj heq).2
              have h1' : ∀ w ∈ outIds rs, w < next :=
                fun w hw => h1 w (outIds_cons_mem r rs w hw)
              obtain ⟨hall, hnd⟩ := ih (v :: seen) next h1' htail
              constructor
              · intro r' hr'
                rcases List.mem_cons.mp hr' with h | h
                · subst h; exact ⟨v, hr, by omega, hs⟩
                · obtain ⟨w, hw1, hw2, hw3⟩ := hall r' h
                  exact ⟨w, hw1, hw2,
                    fun hws => hw3 (List.mem_cons_of_mem v hws)⟩
              · have hcons : outIds (r :: rs) = v :: outIds rs := by
                  simp [outIds, List.filterMap_cons, hr]
                rw [hcons]
                refine List.Nodup.cons ?_ hnd
                intro hvmem
                obtain ⟨r', hr', hid'⟩ := List.mem_filterMap.mp hvmem
                obtain ⟨w, hw1, _, hw3⟩ := hall r' hr'
                rw [hw1] at hid'
                have hwv : w = v := Option.some.inj hid'
                rw [← hwv] at hvmem
                exact hw3 (hwv ▸ List.mem_cons_self v seen)

theorem fix_fixed (file : List RawRec)
    (h : fix_duplicate_ids file = file) :
    (∀ r ∈ file, ∃ v, r.id = some v ∧ 0 < v) ∧ (outIds file).Nodup := by
  by_cases hf : file = []
  · subst hf
    exact ⟨(by intro r hr; cases hr), (by simp [outIds])⟩
  · rw [fix_eq file hf] at h
    obtain ⟨hall, hnd⟩ := fixLoop_fixed file [] (nextIdOf file)
      (fun v hv => lt_nextIdOf file v hv) h
    exact ⟨fun r hr => by
      obtain ⟨v, hv1, hv2, _⟩ := hall r hr
      exact ⟨v, hv1, hv2⟩, hnd⟩

theorem readEntities_ids (file : List RawRec) :
    ∀ es, readEntities file = some es → es.map Entity.id = outIds file := by
  induction file with
  | nil =>
      intro es h
      have hes : ([] : List Entity) = es := Option.some.inj h
      rw [← hes]
      rfl
  | cons r rs ih =>
      intro es h
      unfold readEntities at h
      cases hr : rawToEntity r with
      | none => rw [hr] at h; cases h
      | some e =>
          rw [hr] at h
          obtain ⟨es', hes', heq⟩ := Option.map_eq_some'.mp h
          obtain ⟨v, hv, hev⟩ := Option.map_eq_some'.mp hr
          have hcons : outIds (r :: rs) = v :: outIds rs := by
            simp [outIds, List.filterMap_cons, hv]
          rw [← heq, hcons, List.map_cons, ih es' hes', ← hev]

/-- C6 (amended): `get_all` is a plain read: it never writes — the backing
file after the call is exactly the file before it — and it returns the raw
records mapped to entities without applying identity repair; consequently
the returned ids are unique and positive only when the file needed no
repair (repair runs at construction and the collision fix at insert, not
on reads), and a file corrupted between calls is returned as-is. -/
theorem c6_get_all_spec (file : List RawRec) :
    (get_all file).2 = file ∧
    (get_all file).1 = readEntities file ∧
    (fix_duplicate_ids file = file →
      ∀ es, (get_all file).1 = some es →
        (es.map Entity.id).Nodup ∧ ∀ e' ∈ es, 0 < e'.id) := by
  refine ⟨rfl, rfl, ?_⟩
  intro hfix es hes
  obtain ⟨hall, hnd⟩ := fix_fixed file hfix
  have hes' : readEntities file = some es := hes
  have hids := readEntities_ids file es hes'
  constructor
  · rw [hids]; exact hnd
  · intro e' he'
    have hmem : e'.id ∈ outIds file := by
      rw [← hids]
      exact List.mem_map_of_mem Entity.id he'
    obtain ⟨r, hr, hrid⟩ := List.mem_filterMap.mp hmem
    obtain ⟨v, hv1, hv2⟩ := hall r hr
    rw [hv1] at hrid
    have hveq : v = e'.id := Option.some.inj hrid
    omega

/-- C6 witness: on a well-formed two-record file `get_all` leaves the file
unchanged and the returned ids are unique and positive. -/
theorem c6_get_all_spec_witness :
    (get_all [⟨some 2, 5⟩, ⟨some 1, 6⟩]).2 = [⟨some 2, 5⟩, ⟨some 1, 6⟩] ∧
    (([⟨2, 5⟩, ⟨1, 6⟩] : List Entity).map Entity.id).Nodup ∧
    ∀ e' ∈ ([⟨2, 5⟩, ⟨1, 6⟩] : List Entity), 0 < e'.id := by
  have h := c6_get_all_spec [⟨some 2, 5⟩, ⟨some 1, 6⟩]
  have h2 := h.2.2 (by decide) [⟨2, 5⟩, ⟨1, 6⟩] (by decide)
  exact ⟨h.1, h2.1, h2.2⟩

/-- C6 counterexample: a backing file corrupted between calls to hold a
duplicated id needs repair, yet `get_all` returns both entities with id 1
— not unique ids — and leaves the file exactly as it was: no repaired form
is persisted. -/
theorem c6_get_all_counterexample :
    fix_duplicate_ids [⟨some 1, 0⟩, ⟨some 1, 1⟩]
      ≠ [⟨some 1, 0⟩, ⟨some 1, 1⟩] ∧
    get_all [⟨some 1, 0⟩, ⟨some 1, 1⟩]
      = (some [⟨1, 0⟩, ⟨1, 1⟩], [⟨some 1, 0⟩, ⟨some 1, 1⟩]) ∧
    ¬ (([(⟨1, 0⟩ : Entity), ⟨1, 1⟩].map Entity.id).Nodup) := by
  refine ⟨by decide, by decide, by decide⟩

end Lab5
